import Mathlib

/-!
Shallow embedding of the restrum HTTP router core (Go):
the pattern parser, the routing trie (`insert`, `search`, `matchChildren`),
the route registry (`AddRoutes`, `getRoute`, `handle`, `joinParts`), the
group table and middleware assembly (`Group`, `Use`, `ServeHTTP`), and the
request context continuation (`Next`).

Strings are modelled as lists of characters; Go maps are modelled as
association lists with insert-overwrites-existing-key semantics (the code
only ever looks maps up by key, never iterates them, so association order
is unobservable).  Go runtime faults (indexing a slice out of bounds,
`make` with a negative length, calling a `nil` handler) are modelled
explicitly as `Option`/`fault` results.
-/

namespace restrum

/-- One path or pattern segment, as its list of characters. -/
abbrev Seg := List Char

/-- Abbreviation turning a string literal into the character-list model. -/
def str (s : String) : Seg := s.toList

/-! ### parsePattern (trie source file) -/

/-- The scanning loop of `parsePattern`.  The first argument is the not yet
examined remainder of the pattern, the second is the pending current
segment `pattern[start:i]`.  A `/` flushes the pending segment (dropped if
empty); a `*` flushes the pending segment, appends the whole remainder of
the string starting at the `*` as one final segment and stops (`isWild`
makes the loop `break` and skips the final flush); any other character
extends the pending segment.  At the end of the string the pending segment
is flushed if nonempty (`start < len(pattern)`). -/
def parsePatternAux : List Char → List Char → List Seg
  | [], cur => if cur = [] then [] else [cur]
  | c :: rest, cur =>
    if c = '/' then
      (if cur = [] then [] else [cur]) ++ parsePatternAux rest []
    else if c = '*' then
      (if cur = [] then [] else [cur]) ++ [c :: rest]
    else
      parsePatternAux rest (cur ++ [c])

/-- Source function `parsePattern` splits a pattern into parts. -/
def parsePattern (pattern : Seg) : List Seg :=
  parsePatternAux pattern []

/-! ### joinParts (route.go) -/

/-- The writing loop of `joinParts`: each part is copied at position `pos`,
and a `/` separator is written after it exactly when the position is still
strictly below the buffer limit `length-1`. -/
def joinPartsLoop (limit : Nat) : List Seg → Nat → List Char
  | [], _ => []
  | p :: ps, pos =>
    if pos + p.length < limit then
      p ++ '/' :: joinPartsLoop limit ps (pos + p.length + 1)
    else
      p ++ joinPartsLoop limit ps (pos + p.length)

/-- Source function `joinParts` joins a slice of parts into a single string with `/`
separators.  On the empty slice the Go code computes `length = 0` and
executes `make([]byte, length-1)`, a runtime fault, modelled as `none`. -/
def joinParts (parts : List Seg) : Option (List Char) :=
  let length := parts.foldl (fun acc p => acc + (p.length + 1)) 0
  if length = 0 then none
  else some (joinPartsLoop (length - 1) parts 0)

/-- The specification-level pure `/`-joining of segments: a single `/`
between consecutive parts and no trailing separator.  Proved below to agree
with `joinParts` on every nonempty list. -/
def joinSegs : List Seg → List Char
  | [] => []
  | [p] => p
  | p :: ps => p ++ '/' :: joinSegs ps

/-! ### The routing trie (trie source file) -/

/-- A node of the routing tree: the full pattern (nonempty exactly when a
route terminates here), the segment this node matches, the ordered child
list, and the wild tag. -/
inductive Node : Type where
  | mk (pattern : Seg) (part : Seg) (children : List Node) (isWild : Bool) : Node

def Node.pattern : Node → Seg
  | .mk p _ _ _ => p

def Node.part : Node → Seg
  | .mk _ q _ _ => q

def Node.children : Node → List Node
  | .mk _ _ cs _ => cs

def Node.isWild : Node → Bool
  | .mk _ _ _ w => w

/-- Functional update of the `pattern` field. -/
def Node.withPattern : Node → Seg → Node
  | .mk _ q cs w, p => .mk p q cs w

/-- Functional update of the `children` field. -/
def Node.withChildren : Node → List Node → Node
  | .mk p q _ w, cs => .mk p q cs w

/-- The fresh `&node{}` zero value. -/
def emptyNode : Node := .mk [] [] [] false

/-- The wild tag computed at child creation: `part[0] == ':' || part[0] == '*'`.
The empty-segment case is a Go index fault; it is unreachable because
`parsePattern` yields only nonempty segments (proved below). -/
def partIsWild : Seg → Bool
  | [] => false
  | c :: _ => c = ':' || c = '*'

/-- Source function `matchChildren` finds the first child whose part equals `part` verbatim
or which is wild.  The Go code returns the child pointer and mutates it in
place; the functional model returns the child's index. -/
def Node.matchChildren (part : Seg) : List Node → Option Nat
  | [] => none
  | c :: cs =>
    if c.part = part ∨ c.isWild = true then some 0
    else (Node.matchChildren part cs).map (fun i => i + 1)

/-- Source function `insert` adds a route pattern to the tree.  Go walks `parts` by the
index `height`; the model recurses on the remaining sublist
`parts[height:]`.  When the parts are exhausted the current node's pattern
is set; otherwise the first matching child is reused (updated in place) or
a fresh child is appended. -/
def Node.insert : List Seg → Seg → Node → Node
  | [], pattern, n => n.withPattern pattern
  | part :: rest, pattern, n =>
    match Node.matchChildren part n.children with
    | some i =>
        n.withChildren
          (n.children.set i (Node.insert rest pattern (n.children.getD i emptyNode)))
    | none =>
        n.withChildren
          (n.children ++ [Node.insert rest pattern (.mk [] part [] (partIsWild part))])

/-- The child loop of `search`: children are tried in order; a child is
considered when its part equals the current segment or it is wild, and the
first non-nil recursive result is returned. -/
def searchKids (f : Node → Option Node) (part : Seg) : List Node → Option Node
  | [] => none
  | c :: cs =>
    if c.part = part ∨ c.isWild = true then
      match f c with
      | some r => some r
      | none => searchKids f part cs
    else searchKids f part cs

/-- Source function `search` looks for a node matching the parts.  When the parts are
exhausted or the current node is wild, the node itself is the candidate,
accepted only if it stores a nonempty pattern. -/
def Node.search : List Seg → Node → Option Node
  | [], n => if n.pattern = [] then none else some n
  | part :: rest, n =>
    if n.isWild = true then
      if n.pattern = [] then none else some n
    else
      searchKids (Node.search rest) part n.children

/-! ### The route registry (route.go) -/

/-- Association-list lookup, modelling Go map indexing. -/
def lookupAssoc {α : Type} : List (Seg × α) → Seg → Option α
  | [], _ => none
  | (k, v) :: rest, key => if key = k then some v else lookupAssoc rest key

/-- Association-list store, modelling Go map assignment: an existing
binding of the key is overwritten, otherwise the binding is appended. -/
def updateAssoc {α : Type} : List (Seg × α) → Seg → α → List (Seg × α)
  | [], key, v => [(key, v)]
  | (k, w) :: rest, key, v =>
    if key = k then (key, v) :: rest else (k, w) :: updateAssoc rest key v

/-- The router: one tree root per method and the handler map keyed by
`method + "_" + pattern`.  `H` is the (opaque) handler type. -/
structure Router (H : Type) where
  root : List (Seg × Node)
  handlers : List (Seg × H)

/-- Source function `NewRouter` creates an empty router. -/
def NewRouter (H : Type) : Router H := ⟨[], []⟩

/-- Source function `AddRoutes` parses the pattern, ensures a root exists for the method,
inserts into that method's tree and records the handler under
`method + "_" + pattern`. -/
def Router.AddRoutes {H : Type} (r : Router H) (method pattern : Seg) (handler : H) :
    Router H :=
  let parts := parsePattern pattern
  let key := method ++ '_' :: pattern
  let root0 :=
    match lookupAssoc r.root method with
    | some n => n
    | none => emptyNode
  { root := updateAssoc r.root method (Node.insert parts pattern root0),
    handlers := updateAssoc r.handlers key handler }

/-- The parameter-extraction loop inside `getRoute`, walking the matched
pattern's parts in lockstep with the request path's parts (Go indexes the
path parts by the absolute position `i`; the model drops one path part per
pattern part instead).  `none` models the Go runtime faults on this path:
indexing an empty part, reading `searchParts[i]` out of bounds, and
`joinParts` of an empty remainder. -/
def extractParams : List Seg → List Seg → List (Seg × Seg) → Option (List (Seg × Seg))
  | [], _, acc => some acc
  | part :: parts, sps, acc =>
    match part with
    | [] => none
    | c :: name =>
      if c = ':' then
        match sps with
        | [] => none
        | sp :: sps2 => extractParams parts sps2 (updateAssoc acc name sp)
      else if c = '*' then
        match joinParts sps with
        | none => none
        | some v => some (updateAssoc acc name v)
      else
        extractParams parts sps.tail acc

/-- The outcome of `getRoute`: a runtime fault, a miss (Go `nil, nil`), or
a matched node together with the extracted parameter map. -/
inductive RouteResult : Type where
  | fault : RouteResult
  | miss : RouteResult
  | found (n : Node) (params : List (Seg × Seg)) : RouteResult

/-- Source function `getRoute` parses the path, finds the method's root, searches the tree
and, on a hit, extracts the parameters from the matched node's pattern. -/
def Router.getRoute {H : Type} (r : Router H) (method path : Seg) : RouteResult :=
  let searchParts := parsePattern path
  match lookupAssoc r.root method with
  | none => .miss
  | some root =>
    match Node.search searchParts root with
    | none => .miss
    | some n =>
      match extractParams (parsePattern n.pattern) searchParts [] with
      | none => .fault
      | some params => .found n params

/-! ### The request context and continuation (context source file) -/

/-- Per-request context: parameter map, method, path, the continuation
cursor (`current`, initially `-1`) and the assigned middleware sequence. -/
structure Context (H : Type) where
  params : List (Seg × Seg)
  httpMethod : Seg
  routePath : Seg
  current : Int
  middleware : List H

/-- The observable outcome of one `Next` step: a middleware is invoked with
the updated context, or the cursor ran past the end and nothing is invoked,
or the Go code would index the middleware slice at a negative position. -/
inductive NextResult (H : Type) where
  | invoke (handler : H) (ctx : Context H) : NextResult H
  | stop (ctx : Context H) : NextResult H
  | fault : NextResult H

/-- Source function `Next` increments the cursor and, if it is still strictly below the
length of the middleware sequence, invokes the middleware at the cursor
with the same (updated) context. -/
def Context.Next {H : Type} (ctx : Context H) : NextResult H :=
  let c : Context H := { ctx with current := ctx.current + 1 }
  if hlt : c.current < (c.middleware.length : Int) then
    if h0 : 0 ≤ c.current then
      .invoke (c.middleware.get ⟨c.current.toNat, by omega⟩) c
    else .fault
  else .stop c

/-! ### Dispatch (route.go `handle`, restrum.go `ServeHTTP`) -/

/-- The observable outcome of the dispatch step: the resolved handler is
invoked with the (parameter-populated) context, or an HTTP error status
with a literal body is written, or a Go runtime fault occurs (resolution
fault, or invoking the `nil` handler of a missing map entry). -/
inductive HandleResult (H : Type) where
  | callHandler (handler : H) (ctx : Context H) : HandleResult H
  | errorResp (code : Nat) (body : List Char) : HandleResult H
  | fault : HandleResult H

/-- The literal body written by `http.Error(w, "NOT FOUND", 404)`. -/
def notFoundBody : List Char := str "NOT FOUND"

/-- Source function `handle` resolves the route; on a hit it stores the parameters in the
context and invokes the handler registered under `method + "_" + pattern`
directly, and on a miss it writes the 404 error. -/
def Router.handle {H : Type} (r : Router H) (ctx : Context H) : HandleResult H :=
  match r.getRoute ctx.httpMethod ctx.routePath with
  | .fault => .fault
  | .miss => .errorResp 404 notFoundBody
  | .found n params =>
    match lookupAssoc r.handlers (ctx.httpMethod ++ '_' :: n.pattern) with
    | none => .fault
    | some h => .callHandler h { ctx with params := params }

/-- A routing scope: the fully composed path prefix and the middleware list
attached directly to the scope. -/
structure RouterGroup (H : Type) where
  pre : Seg
  middlewares : List H

/-- The engine: the router plus the flattened ordered group table.  The
root group (empty prefix, index 0) is created by `New`. -/
structure Engine (H : Type) where
  router : Router H
  groups : List (RouterGroup H)

/-- Source function `New` creates an engine whose group table holds just the root group. -/
def Engine.New (H : Type) : Engine H :=
  { router := NewRouter H, groups := [{ pre := [], middlewares := [] }] }

/-- Source function `Group` creates a child of the group at index `parent`: its prefix is
the parent's composed prefix concatenated with `comp`, and it is appended
to the engine's group table.  Returns the new group's index. -/
def Engine.Group {H : Type} (e : Engine H) (parent : Nat) (comp : Seg) :
    Engine H × Nat :=
  let pp := (e.groups.getD parent { pre := [], middlewares := [] }).pre
  ({ e with groups := e.groups ++ [{ pre := pp ++ comp, middlewares := [] }] },
   e.groups.length)

/-- Source function `Use` appends middlewares to the group at index `idx` (the Go code
mutates the group through its pointer in the engine's list). -/
def Engine.Use {H : Type} (e : Engine H) (idx : Nat) (mws : List H) : Engine H :=
  let g := e.groups.getD idx { pre := [], middlewares := [] }
  { e with groups := e.groups.set idx { g with middlewares := g.middlewares ++ mws } }

/-- The middleware-assembly loop of `ServeHTTP`: for every group in table
order whose prefix is a textual prefix of the request path, the group's
middleware list is appended to the request's sequence. -/
def assembleMiddlewares {H : Type} : List (RouterGroup H) → Seg → List H
  | [], _ => []
  | g :: gs, path =>
    (if g.pre.isPrefixOf path then g.middlewares else []) ++ assembleMiddlewares gs path

/-- Source function `ServeHTTP` assembles the middleware sequence, creates the fresh
context (cursor `-1`, empty parameters) with that sequence attached, and
runs the router's dispatch step on it. -/
def Engine.ServeHTTP {H : Type} (e : Engine H) (method path : Seg) : HandleResult H :=
  let mws := assembleMiddlewares e.groups path
  let ctx : Context H :=
    { params := [], httpMethod := method, routePath := path,
      current := -1, middleware := mws }
  e.router.handle ctx

/-- A router built from a sequence of `(method, pattern, handler)`
registrations, in order, starting from the fresh router. -/
def buildRouter {H : Type} (regs : List (Seg × Seg × H)) : Router H :=
  regs.foldl (fun r reg => r.AddRoutes reg.1 reg.2.1 reg.2.2) (NewRouter H)

end restrum

namespace restrum

/-! ### Basic properties of the pattern parser -/

/-- Every segment produced by the parser's scanning loop is nonempty: the
pending segment is flushed only when nonempty, and a wildcard segment
always contains at least the `*` character. -/
theorem parsePatternAux_ne_nil :
    ∀ (p cur : List Char), ∀ s ∈ parsePatternAux p cur, s ≠ [] := by
  intro p
  induction p with
  | nil =>
    intro cur s hs
    by_cases hc : cur = [] <;> simp [parsePatternAux, hc] at hs
    subst hs; exact hc
  | cons c rest ih =>
    intro cur s hs
    simp only [parsePatternAux] at hs
    by_cases h1 : c = '/'
    · simp only [h1, if_pos rfl] at hs
      rcases List.mem_append.1 hs with h | h
      · by_cases hc : cur = [] <;> simp [hc] at h
        subst h; exact hc
      · exact ih [] s h
    · by_cases h2 : c = '*'
      · simp only [h1, h2, if_neg, if_pos rfl, reduceIte] at hs
        rcases List.mem_append.1 hs with h | h
        · by_cases hc : cur = [] <;> simp [hc] at h
          subst h; exact hc
        · simp at h; subst h; simp
      · simp only [h1, h2, reduceIte] at hs
        exact ih (cur ++ [c]) s hs

/-- Segments of a pattern are nonempty. -/
theorem parsePattern_ne_nil (p : Seg) : ∀ s ∈ parsePattern p, s ≠ [] :=
  parsePatternAux_ne_nil p []

/-- When the remaining pattern has no `*` and the pending segment has no
`/` and no `*`, every produced segment is free of `/` and `*`. -/
theorem parsePatternAux_no_slash_star :
    ∀ (p cur : List Char), '*' ∉ p → '/' ∉ cur → '*' ∉ cur →
      ∀ s ∈ parsePatternAux p cur, '/' ∉ s ∧ '*' ∉ s := by
  intro p
  induction p with
  | nil =>
    intro cur _ hcs hcc s hs
    by_cases hc : cur = [] <;> simp [parsePatternAux, hc] at hs
    subst hs; exact ⟨hcs, hcc⟩
  | cons c rest ih =>
    intro cur hp hcs hcc s hs
    have hcne : c ≠ '*' := by intro h; exact hp (h ▸ List.mem_cons_self c rest)
    have hrest : '*' ∉ rest := fun h => hp (List.mem_cons_of_mem c h)
    simp only [parsePatternAux] at hs
    by_cases h1 : c = '/'
    · simp only [h1, if_pos rfl] at hs
      rcases List.mem_append.1 hs with h | h
      · by_cases hc : cur = [] <;> simp [hc] at h
        subst h; exact ⟨hcs, hcc⟩
      · exact ih [] hrest (by simp) (by simp) s h
    · simp only [h1, hcne, reduceIte] at hs
      refine ih (cur ++ [c]) hrest ?_ ?_ s hs
      · intro hmem
        rcases List.mem_append.1 hmem with h | h
        · exact hcs h
        · simp at h; exact h1 h.symm
      · intro hmem
        rcases List.mem_append.1 hmem with h | h
        · exact hcc h
        · simp at h; exact hcne h.symm

/-- Scanning a block of ordinary characters (no `/`, no `*`) just moves the
block into the pending segment. -/
theorem parsePatternAux_append_seg (t : List Char) :
    ∀ (s cur : List Char), '/' ∉ s → '*' ∉ s →
      parsePatternAux (s ++ t) cur = parsePatternAux t (cur ++ s) := by
  intro s
  induction s with
  | nil => intro cur _ _; simp
  | cons c s' ih =>
    intro cur hs hc
    have h1 : c ≠ '/' := fun h => hs (h ▸ List.mem_cons_self c s')
    have h2 : c ≠ '*' := fun h => hc (h ▸ List.mem_cons_self c s')
    have hs' : '/' ∉ s' := fun h => hs (List.mem_cons_of_mem c h)
    have hc' : '*' ∉ s' := fun h => hc (List.mem_cons_of_mem c h)
    simp only [List.cons_append, parsePatternAux, h1, h2, reduceIte]
    have hih := ih (cur ++ [c]) hs' hc'
    rw [List.append_assoc] at hih
    simpa using hih

/-- Parsing the `/`-joining of clean nonempty segments reproduces exactly
those segments. -/
theorem parse_joinSegs :
    ∀ segs : List Seg, (∀ s ∈ segs, s ≠ [] ∧ '/' ∉ s ∧ '*' ∉ s) →
      parsePattern (joinSegs segs) = segs := by
  intro segs
  induction segs with
  | nil => intro _; rfl
  | cons s rest ih =>
    intro hprops
    obtain ⟨hne, hns, hnc⟩ := hprops s (List.mem_cons_self s rest)
    cases rest with
    | nil =>
      show parsePatternAux s [] = [s]
      have h := parsePatternAux_append_seg [] s [] hns hnc
      simp only [List.append_nil, List.nil_append] at h
      rw [h]
      simp [parsePatternAux, hne]
    | cons s2 rest2 =>
      show parsePatternAux (s ++ '/' :: joinSegs (s2 :: rest2)) [] = s :: s2 :: rest2
      rw [parsePatternAux_append_seg ('/' :: joinSegs (s2 :: rest2)) s [] hns hnc]
      simp only [List.nil_append, parsePatternAux, if_pos rfl, hne, reduceIte]
      have := ih (fun t ht => hprops t (List.mem_cons_of_mem s ht))
      simpa [parsePattern] using this

/-- The sum of the lengths of the parts, plus one separator byte budget per
part: the `length` accumulated by the first loop of joinParts. -/
def sumLen1 : List Seg → Nat
  | [] => 0
  | p :: ps => p.length + 1 + sumLen1 ps

theorem foldl_sumLen1 :
    ∀ (ps : List Seg) (acc : Nat),
      ps.foldl (fun a p => a + (p.length + 1)) acc = acc + sumLen1 ps := by
  intro ps
  induction ps with
  | nil => intro acc; simp [sumLen1]
  | cons p ps ih => intro acc; simp [sumLen1, ih]; omega

theorem joinPartsLoop_cons (limit : Nat) (p : Seg) (ps : List Seg) (pos : Nat) :
    joinPartsLoop limit (p :: ps) pos =
      if pos + p.length < limit then p ++ '/' :: joinPartsLoop limit ps (pos + p.length + 1)
      else p ++ joinPartsLoop limit ps (pos + p.length) := rfl

theorem joinPartsLoop_eq :
    ∀ (ps : List Seg) (p : Seg) (pos : Nat),
      joinPartsLoop (pos + p.length + sumLen1 ps) (p :: ps) pos = joinSegs (p :: ps) := by
  intro ps
  induction ps with
  | nil =>
    intro p pos
    rw [joinPartsLoop_cons]
    simp [joinPartsLoop, sumLen1, joinSegs]
  | cons q rest ih =>
    intro p pos
    have hq : sumLen1 (q :: rest) = q.length + 1 + sumLen1 rest := rfl
    have hcond : pos + p.length < pos + p.length + sumLen1 (q :: rest) := by omega
    rw [joinPartsLoop_cons, if_pos hcond]
    have harith : pos + p.length + sumLen1 (q :: rest)
        = (pos + p.length + 1) + q.length + sumLen1 rest := by omega
    rw [harith, ih q (pos + p.length + 1)]
    cases rest <;> rfl

/-- On every nonempty list the byte-writing joinParts computes exactly the
pure `/`-joining: one separator between consecutive parts, none at the end. -/
theorem joinParts_eq_joinSegs (p : Seg) (ps : List Seg) :
    joinParts (p :: ps) = some (joinSegs (p :: ps)) := by
  have hfold := foldl_sumLen1 (p :: ps) 0
  have hpos : sumLen1 (p :: ps) = p.length + 1 + sumLen1 ps := rfl
  simp only [joinParts, hfold, Nat.zero_add]
  rw [if_neg (by omega)]
  have : sumLen1 (p :: ps) - 1 = 0 + p.length + sumLen1 ps := by omega
  rw [this, joinPartsLoop_eq ps p 0]

/-- C2, counterexample to the claim as stated: parsing `/a/*x/b` does not
yield the segments `["a", "*x"]`; the text after the wildcard appears
inside the final segment. -/
theorem c2_counterexample :
    parsePattern (str "/a/*x/b") ≠ [str "a", str "*x"] := by decide

/-- Scanning stops at the first `*`: the segments seen so far are flushed
and the whole remainder of the string from the `*` onward becomes the one
final segment. -/
theorem parsePatternAux_star (post : Seg) :
    ∀ (p cur : List Char), '*' ∉ p →
      parsePatternAux (p ++ '*' :: post) cur = parsePatternAux p cur ++ ['*' :: post] := by
  intro p
  induction p with
  | nil =>
    intro cur _
    by_cases hcur : cur = [] <;> simp [parsePatternAux, hcur]
  | cons c rest ih =>
    intro cur hp
    have hc : c ≠ '*' := fun h => hp (h ▸ List.mem_cons_self c rest)
    have hrest : '*' ∉ rest := fun h => hp (List.mem_cons_of_mem c h)
    by_cases h1 : c = '/'
    · subst h1
      simp only [List.cons_append, parsePatternAux, reduceIte, List.append_eq]
      rw [ih [] hrest, List.append_assoc]
    · simp only [List.cons_append, parsePatternAux, h1, hc, reduceIte, List.append_eq]
      exact ih (cur ++ [c]) hrest

/-- C2 (amended): for every pattern containing a `*`, parsing stops at the
first `*` after appending, as the final segment, the entire remainder of
the string from that `*` onward — the text after the `*` is not examined
further but does appear inside the final wildcard segment; in particular
`/a/*x/b` parses to `["a", "*x/b"]`. -/
theorem c2_wildcard_truncation (pre post : Seg) (hstar : '*' ∉ pre) :
    parsePattern (pre ++ '*' :: post) = parsePattern pre ++ ['*' :: post] ∧
    parsePattern (str "/a/*x/b") = [str "a", str "*x/b"] :=
  ⟨parsePatternAux_star post pre [] hstar, by decide⟩

end restrum

namespace restrum

/-- C2 witness at a concrete wildcard-not-last pattern. -/
theorem c2_wildcard_truncation_witness :
    parsePattern (str "/a/" ++ '*' :: str "x/b") = parsePattern (str "/a/") ++ ['*' :: str "x/b"] ∧
    parsePattern (str "/a/*x/b") = [str "a", str "*x/b"] :=
  c2_wildcard_truncation (str "/a/") (str "x/b") (by decide)

/-- C8: for every pattern with no wildcard, re-joining the parsed segments
with `/` and parsing again reproduces the same segment sequence; moreover,
whenever the segment list is nonempty, the source's `joinParts` computes
exactly that `/`-joining. -/
theorem c8_parse_join_roundtrip (P : Seg) (hstar : '*' ∉ P) :
    parsePattern (joinSegs (parsePattern P)) = parsePattern P ∧
    (parsePattern P ≠ [] →
      joinParts (parsePattern P) = some (joinSegs (parsePattern P))) := by
  constructor
  · refine parse_joinSegs (parsePattern P) (fun s hs => ⟨parsePattern_ne_nil P s hs, ?_, ?_⟩)
    · exact (parsePatternAux_no_slash_star P [] hstar (by simp) (by simp) s hs).1
    · exact (parsePatternAux_no_slash_star P [] hstar (by simp) (by simp) s hs).2
  · intro hne
    cases h : parsePattern P with
    | nil => exact absurd h hne
    | cons p ps => exact joinParts_eq_joinSegs p ps

/-- C8 witness at a concrete wildcard-free pattern. -/
theorem c8_parse_join_roundtrip_witness :
    parsePattern (joinSegs (parsePattern (str "/p/x/doc"))) = parsePattern (str "/p/x/doc") ∧
    (parsePattern (str "/p/x/doc") ≠ [] →
      joinParts (parsePattern (str "/p/x/doc")) =
        some (joinSegs (parsePattern (str "/p/x/doc")))) :=
  c8_parse_join_roundtrip (str "/p/x/doc") (by decide)

end restrum

namespace restrum

/-- C6: `Next` increments the cursor by exactly one; if the new cursor is
in bounds the middleware at that position is invoked with the updated
context (same context otherwise); if the new cursor is out of bounds —
in particular whenever the assigned sequence is empty — nothing is invoked
and only the cursor changes. -/
theorem c6_next_step {H : Type} (ctx : Context H) (hc : -1 ≤ ctx.current) :
    (∀ hidx : (ctx.current + 1).toNat < ctx.middleware.length,
        ctx.Next = .invoke (ctx.middleware.get ⟨(ctx.current + 1).toNat, hidx⟩)
          { ctx with current := ctx.current + 1 }) ∧
    (¬ ctx.current + 1 < (ctx.middleware.length : Int) →
        ctx.Next = .stop { ctx with current := ctx.current + 1 }) ∧
    (ctx.middleware = [] →
        ctx.Next = .stop { ctx with current := ctx.current + 1 }) := by
  refine ⟨?_, ?_, ?_⟩
  · intro hidx
    simp only [Context.Next]
    split
    · split
      · rfl
      · omega
    · rename_i hlt
      exact absurd (by omega : ctx.current + 1 < (ctx.middleware.length : Int)) hlt
  · intro hlt
    simp only [Context.Next]
    split
    · rename_i h
      exact absurd h hlt
    · rfl
  · intro hnil
    simp only [Context.Next]
    split
    · rename_i h
      rw [hnil] at h
      simp at h
      omega
    · rfl

/-- C6 witness: one concrete step from the before-first cursor of a
two-element sequence invokes the first middleware. -/
theorem c6_next_step_witness :
    (Context.mk [] [] [] (-1) [5, 6] : Context Nat).Next =
      .invoke 5 (Context.mk [] [] [] 0 [5, 6]) :=
  (c6_next_step (Context.mk [] [] [] (-1) [5, 6]) (by decide)).1 (by decide)

/-- C3: when resolution hits a registered route with a registered handler,
the dispatch step invokes that handler directly, with the continuation
cursor still at its initial value `-1`, the assembled middleware sequence
merely attached, and the context unchanged except for the parameter map. -/
theorem c3_dispatch_direct {H : Type} (e : Engine H) (method path : Seg)
    (n : Node) (params : List (Seg × Seg)) (h : H)
    (hres : e.router.getRoute method path = .found n params)
    (hh : lookupAssoc e.router.handlers (method ++ '_' :: n.pattern) = some h) :
    e.ServeHTTP method path =
      .callHandler h
        { params := params, httpMethod := method, routePath := path,
          current := -1, middleware := assembleMiddlewares e.groups path } := by
  simp only [Engine.ServeHTTP, Router.handle, hres, hh]

/-- C3 witness: a concrete engine with the route `/x` dispatches `/x`
directly to its handler with the cursor at `-1`. -/
theorem c3_dispatch_direct_witness :
    (Engine.mk ((NewRouter Nat).AddRoutes (str "GET") (str "/x") 7)
        []).ServeHTTP (str "GET") (str "/x") =
      .callHandler 7
        { params := [], httpMethod := str "GET", routePath := str "/x",
          current := -1, middleware := [] } := by
  have h := c3_dispatch_direct
    (Engine.mk ((NewRouter Nat).AddRoutes (str "GET") (str "/x") 7) [])
    (str "GET") (str "/x")
    (Node.mk (str "/x") (str "x") [] false) [] 7 (by rfl) (by rfl)
  exact h

end restrum

namespace restrum

/-- The example engine of the specification: the root group carries
middleware `1`, the group `/api` (created first) carries `2, 3`, and its
child group `/api/v1` carries `4`. -/
def apiEngine : Engine Nat :=
  let e0 := (Engine.New Nat).Use 0 [1]
  let p := e0.Group 0 (str "/api")
  let e1 := p.1.Use p.2 [2, 3]
  let q := e1.Group p.2 (str "/v1")
  q.1.Use q.2 [4]

/-- C5: the assembled sequence is exactly the concatenation, over the
groups in creation order, of the middleware lists of the groups whose
prefix is a textual prefix of the request path; the prefix test is real
list-prefix; and for the `/api` / `/api/v1` example and the request path
`/api/v1/users` the sequence is root's, then `/api`'s, then `/api/v1`'s
middlewares in order. -/
theorem c5_middleware_assembly {H : Type} (groups : List (RouterGroup H)) (path : Seg) :
    assembleMiddlewares groups path =
      ((groups.filter (fun g => g.pre.isPrefixOf path)).map RouterGroup.middlewares).flatten ∧
    (∀ g : RouterGroup H, g.pre.isPrefixOf path = true ↔ g.pre <+: path) ∧
    assembleMiddlewares apiEngine.groups (str "/api/v1/users") = [1, 2, 3, 4] := by
  refine ⟨?_, fun g => List.isPrefixOf_iff_prefix, by decide⟩
  induction groups with
  | nil => rfl
  | cons g gs ih =>
    cases h : g.pre.isPrefixOf path <;>
      simp [assembleMiddlewares, List.filter_cons, h, ih]

end restrum

namespace restrum

/-! ### Re-registration is idempotent on the tree (C9) -/

theorem set_append_length {α : Type} (l : List α) (a b : α) :
    (l ++ [a]).set l.length b = l ++ [b] := by
  induction l with
  | nil => rfl
  | cons x xs ih => simp [List.set, ih]

theorem getD_append_length {α : Type} (l : List α) (a d : α) :
    (l ++ [a]).getD l.length d = a := by
  induction l with
  | nil => rfl
  | cons x xs ih => simpa using ih

theorem getD_set_self {α : Type} :
    ∀ (l : List α) (i : Nat) (b d : α), i < l.length → (l.set i b).getD i d = b := by
  intro l
  induction l with
  | nil => intro i b d h; simp at h
  | cons x xs ih =>
    intro i b d h
    cases i with
    | zero => rfl
    | succ j => simpa using ih j b d (by simpa using h)

theorem matchChildren_lt {part : Seg} :
    ∀ {cs : List Node} {i : Nat}, Node.matchChildren part cs = some i → i < cs.length := by
  intro cs
  induction cs with
  | nil => intro i h; simp [Node.matchChildren] at h
  | cons c cs ih =>
    intro i h
    simp only [Node.matchChildren] at h
    split at h
    · cases h; simp
    · rcases Option.map_eq_some'.1 h with ⟨j, hj, rfl⟩
      simpa using ih hj

/-- Inserting below a node changes neither its matched part nor its wild
tag. -/
theorem insert_part (parts : List Seg) (pat : Seg) (n : Node) :
    (Node.insert parts pat n).part = n.part := by
  cases parts with
  | nil => cases n; rfl
  | cons part rest =>
    simp only [Node.insert]
    split <;> (cases n; rfl)

theorem insert_isWild (parts : List Seg) (pat : Seg) (n : Node) :
    (Node.insert parts pat n).isWild = n.isWild := by
  cases parts with
  | nil => cases n; rfl
  | cons part rest =>
    simp only [Node.insert]
    split <;> (cases n; rfl)

theorem children_withChildren (n : Node) (cs : List Node) :
    (n.withChildren cs).children = cs := by cases n; rfl

theorem withChildren_withChildren (n : Node) (cs ds : List Node) :
    ((n.withChildren cs).withChildren ds) = n.withChildren ds := by cases n; rfl

/-- Replacing the matched child by one with the same part and wild tag
leaves the matched index unchanged. -/
theorem matchChildren_set_same {part : Seg} :
    ∀ (cs : List Node) (i : Nat) (c' : Node), Node.matchChildren part cs = some i →
      c'.part = (cs.getD i emptyNode).part → c'.isWild = (cs.getD i emptyNode).isWild →
      Node.matchChildren part (cs.set i c') = some i := by
  intro cs
  induction cs with
  | nil => intro i c' h; simp [Node.matchChildren] at h
  | cons c cs ih =>
    intro i c' h hp hw
    simp only [Node.matchChildren] at h
    split at h
    · cases h
      simp only [List.getD_cons_zero] at hp hw
      simp only [List.set]
      rename_i hguard
      rw [show Node.matchChildren part (c' :: cs)
          = if c'.part = part ∨ c'.isWild = true then some 0
            else (Node.matchChildren part cs).map (fun i => i + 1) from rfl]
      rw [if_pos (by rw [hp, hw]; exact hguard)]
    · rcases Option.map_eq_some'.1 h with ⟨j, hj, rfl⟩
      simp only [List.getD_cons_succ] at hp hw
      simp only [List.set]
      rename_i hguard
      rw [show Node.matchChildren part (c :: cs.set j c')
          = if c.part = part ∨ c.isWild = true then some 0
            else (Node.matchChildren part (cs.set j c')).map (fun i => i + 1) from rfl]
      rw [if_neg hguard, ih j c' hj hp hw]
      rfl

/-- Appending a child whose part matches, to a list with no match, makes
that child the matched one. -/
theorem matchChildren_append_match {part : Seg} (c : Node)
    (hc : c.part = part ∨ c.isWild = true) :
    ∀ cs : List Node, Node.matchChildren part cs = none →
      Node.matchChildren part (cs ++ [c]) = some cs.length := by
  intro cs
  induction cs with
  | nil => intro _; simp [Node.matchChildren, hc]
  | cons c0 cs ih =>
    intro h
    simp only [Node.matchChildren] at h
    split at h
    · simp at h
    · rename_i hguard
      have hnone : Node.matchChildren part cs = none := by
        cases hmc : Node.matchChildren part cs with
        | none => rfl
        | some j => rw [hmc] at h; simp at h
      simp only [List.cons_append, Node.matchChildren, hguard, reduceIte, List.append_eq]
      rw [ih hnone]
      rfl

/-- Inserting the same (pattern, parts) twice produces the same tree as
inserting it once: the second insertion retraces the same path and re-sets
the same terminal pattern, creating no nodes. -/
theorem insert_insert :
    ∀ (parts : List Seg) (pat : Seg) (n : Node),
      Node.insert parts pat (Node.insert parts pat n) = Node.insert parts pat n := by
  intro parts
  induction parts with
  | nil => intro pat n; cases n; rfl
  | cons part rest ih =>
    intro pat n
    cases hm : Node.matchChildren part n.children with
    | some i =>
      have hi : i < n.children.length := matchChildren_lt hm
      have hm2 : Node.matchChildren part
          (n.children.set i (Node.insert rest pat (n.children.getD i emptyNode))) = some i := by
        refine matchChildren_set_same n.children i _ hm ?_ ?_
        · rw [insert_part]
        · rw [insert_isWild]
      simp only [Node.insert, hm]
      rw [children_withChildren]
      simp only [hm2]
      rw [withChildren_withChildren]
      rw [getD_set_self n.children i _ emptyNode hi]
      rw [ih]
      rw [List.set_set]
    | none =>
      have hcpart : (Node.insert rest pat (Node.mk [] part [] (partIsWild part))).part = part :=
        insert_part rest pat (Node.mk [] part [] (partIsWild part))
      have hm2 : Node.matchChildren part
          (n.children ++ [Node.insert rest pat (Node.mk [] part [] (partIsWild part))])
          = some n.children.length :=
        matchChildren_append_match _ (Or.inl hcpart) n.children hm
      simp only [Node.insert, hm]
      rw [children_withChildren]
      simp only [hm2]
      rw [withChildren_withChildren, getD_append_length, ih, set_append_length]

end restrum

namespace restrum

theorem lookup_update {α : Type} :
    ∀ (l : List (Seg × α)) (k key : Seg) (v : α),
      lookupAssoc (updateAssoc l key v) k =
        if k = key then some v else lookupAssoc l k := by
  intro l
  induction l with
  | nil => intro k key v; simp [updateAssoc, lookupAssoc]
  | cons kv rest ih =>
    intro k key v
    obtain ⟨k0, v0⟩ := kv
    simp only [updateAssoc]
    by_cases h : key = k0
    · subst h
      by_cases hk : k = key <;> simp [lookupAssoc, hk]
    · simp only [h, reduceIte, lookupAssoc, ih]
      by_cases hk : k = k0
      · subst hk
        have hne : ¬ k = key := fun hkk => h hkk.symm
        simp [hne]
      · simp [hk]

theorem update_update {α : Type} :
    ∀ (l : List (Seg × α)) (k : Seg) (v v2 : α),
      updateAssoc (updateAssoc l k v) k v2 = updateAssoc l k v2 := by
  intro l
  induction l with
  | nil => intro k v v2; simp [updateAssoc]
  | cons kv rest ih =>
    intro k v v2
    obtain ⟨k0, w⟩ := kv
    simp only [updateAssoc]
    by_cases h : k = k0
    · simp [h, updateAssoc]
    · simp [h, updateAssoc, ih]

/-- C9: registering the same (method, pattern) twice, with handlers `h1`
then `h2` and no intervening registrations, on any starting router, yields
a router literally equal to the one obtained by a single registration of
`h2` — in particular the routing tree is identical (the second insert
retraces the same path and re-sets the same terminal pattern, creating no
nodes) — and the handler lookup under the route's key silently yields the
overwriting handler `h2`. -/
theorem c9_reregister_overwrites {H : Type} (r : Router H)
    (method pattern : Seg) (h1 h2 : H) :
    ((r.AddRoutes method pattern h1).AddRoutes method pattern h2 =
      r.AddRoutes method pattern h2) ∧
    lookupAssoc ((r.AddRoutes method pattern h1).AddRoutes
        method pattern h2).handlers (method ++ '_' :: pattern) = some h2 := by
  constructor
  · simp [Router.AddRoutes, lookup_update, update_update, insert_insert]
  · simp [Router.AddRoutes, lookup_update, update_update]

/-- Resolution against a single-registration router, reduced to the bare
tree operations (the method root is the tree grown from the empty node). -/
theorem getRoute_single {H : Type} (method P path : Seg) (h : H) :
    ((NewRouter H).AddRoutes method P h).getRoute method path =
      match Node.search (parsePattern path) (Node.insert (parsePattern P) P emptyNode) with
      | none => .miss
      | some n =>
        match extractParams (parsePattern n.pattern) (parsePattern path) [] with
        | none => .fault
        | some params => .found n params := by
  simp [Router.AddRoutes, Router.getRoute, NewRouter, lookupAssoc, updateAssoc]

/-- Handler lookup against a single-registration router. -/
theorem handlers_single {H : Type} (method P : Seg) (h : H) (key : Seg) :
    lookupAssoc ((NewRouter H).AddRoutes method P h).handlers key =
      if key = method ++ '_' :: P then some h else none := by
  simp [Router.AddRoutes, NewRouter, updateAssoc, lookupAssoc]

/-- C1 (evaluation of the actual code at the claim's input): after
registering `/p/:lang/doc` under any method, resolving `/p/go/doc` under
that method MISSES — the `:lang` node is wild, so `search` accepts it
early, finds its pattern empty and rejects the whole branch instead of
descending to the `doc` child.  The claim (resolution must succeed with
`lang = "go"`) is therefore violated by the code. -/
theorem c1_param_route_misses {H : Type} (method : Seg) (h : H) :
    ((NewRouter H).AddRoutes method (str "/p/:lang/doc") h).getRoute
      method (str "/p/go/doc") = .miss := by
  rw [getRoute_single]
  rfl

/-- C4: after registering `/static/*filepath` under any method, resolving
`/static/css/app.css` under that method succeeds on the wildcard node and
binds `filepath` to `css/app.css`, the `/`-joined remainder of the path
segments with single separators and no trailing one. -/
theorem c4_wildcard_binding {H : Type} (method : Seg) (h : H) :
    ∃ n : Node,
      ((NewRouter H).AddRoutes method (str "/static/*filepath") h).getRoute
        method (str "/static/css/app.css") =
        .found n [(str "filepath", str "css/app.css")] ∧
      n.pattern = str "/static/*filepath" ∧
      lookupAssoc ((NewRouter H).AddRoutes method (str "/static/*filepath") h).handlers
        (method ++ '_' :: n.pattern) = some h := by
  refine ⟨Node.mk (str "/static/*filepath") (str "*filepath") [] true, ?_, rfl, ?_⟩
  · rw [getRoute_single]
    rfl
  · rw [handlers_single]
    exact if_pos rfl

end restrum

namespace restrum

/-! ### Structural invariants of the routing tree (C7, C10) -/

theorem pattern_withChildren (n : Node) (cs : List Node) :
    (n.withChildren cs).pattern = n.pattern := by cases n; rfl

theorem pattern_withPattern (n : Node) (p : Seg) :
    (n.withPattern p).pattern = p := by cases n; rfl

theorem children_withPattern (n : Node) (p : Seg) :
    (n.withPattern p).children = n.children := by cases n; rfl

theorem getD_mem {α : Type} :
    ∀ (l : List α) (i : Nat) (d : α), i < l.length → l.getD i d ∈ l := by
  intro l
  induction l with
  | nil => intro i d h; simp at h
  | cons x xs ih =>
    intro i d h
    cases i with
    | zero => simp [List.getD_cons_zero]
    | succ j =>
      rw [List.getD_cons_succ]
      exact List.mem_cons_of_mem x (ih j d (by simpa using h))

/-- Depth invariant of the tree: a node at depth `d` stores, when set, a
pattern that parses to exactly `d` segments, and its children sit at depth
`d + 1`. -/
inductive NodeOK : Nat → Node → Prop where
  | intro (d : Nat) (n : Node)
      (hp : n.pattern ≠ [] → (parsePattern n.pattern).length = d)
      (hk : ∀ c ∈ n.children, NodeOK (d + 1) c) : NodeOK d n

theorem NodeOK.pattern_length {d : Nat} {n : Node} (h : NodeOK d n) :
    n.pattern ≠ [] → (parsePattern n.pattern).length = d := by
  cases h with | intro _ _ hp _ => exact hp

theorem NodeOK.kids {d : Nat} {n : Node} (h : NodeOK d n) :
    ∀ c ∈ n.children, NodeOK (d + 1) c := by
  cases h with | intro _ _ _ hk => exact hk

theorem nodeOK_empty : NodeOK 0 emptyNode :=
  NodeOK.intro 0 emptyNode (fun hne => absurd rfl hne)
    (fun c hc => absurd hc (by simp [emptyNode, Node.children]))

/-- Membership of a node in (the subtree rooted at) another node. -/
inductive InTree : Node → Node → Prop where
  | refl (n : Node) : InTree n n
  | child {m c n : Node} : c ∈ n.children → InTree m c → InTree m n

theorem inTree_leaf {n0 : Node} {pat part : Seg} {w : Bool} :
    InTree n0 (Node.mk pat part [] w) → n0 = Node.mk pat part [] w := by
  intro h
  cases h with
  | refl => rfl
  | child hc _ => simp [Node.children] at hc

/-- A successful child-loop result comes from some considered child. -/
theorem searchKids_some {f : Node → Option Node} {part : Seg} :
    ∀ {cs : List Node} {m : Node}, searchKids f part cs = some m →
      ∃ c ∈ cs, f c = some m := by
  intro cs
  induction cs with
  | nil => intro m h; simp [searchKids] at h
  | cons c cs ih =>
    intro m h
    simp only [searchKids] at h
    split at h
    · split at h
      · rename_i hr
        cases h; exact ⟨c, by simp, hr⟩
      · obtain ⟨c', hc', hf⟩ := ih h
        exact ⟨c', by simp [hc'], hf⟩
    · obtain ⟨c', hc', hf⟩ := ih h
      exact ⟨c', by simp [hc'], hf⟩

/-- A node returned by `search` stores a nonempty pattern whose segment
count is bounded by the depth plus the number of remaining path parts. -/
theorem search_ok :
    ∀ (parts : List Seg) (d : Nat) (n m : Node), NodeOK d n →
      Node.search parts n = some m →
      m.pattern ≠ [] ∧ (parsePattern m.pattern).length ≤ d + parts.length := by
  intro parts
  induction parts with
  | nil =>
    intro d n m hok hs
    simp only [Node.search] at hs
    split at hs
    · simp at hs
    · rename_i hne
      cases hs
      refine ⟨hne, ?_⟩
      rw [hok.pattern_length hne]; simp
  | cons part rest ih =>
    intro d n m hok hs
    simp only [Node.search] at hs
    split at hs
    · split at hs
      · simp at hs
      · rename_i hne
        cases hs
        refine ⟨hne, ?_⟩
        rw [hok.pattern_length hne]; simp
    · obtain ⟨c, hc, hfc⟩ := searchKids_some hs
      obtain ⟨h1, h2⟩ := ih (d + 1) c m (hok.kids c hc) hfc
      refine ⟨h1, ?_⟩
      simp only [List.length_cons]
      omega

/-- A node returned by `search` lies in the searched tree. -/
theorem search_mem :
    ∀ (parts : List Seg) (n m : Node), Node.search parts n = some m → InTree m n := by
  intro parts
  induction parts with
  | nil =>
    intro n m hs
    simp only [Node.search] at hs
    split at hs
    · simp at hs
    · cases hs; exact InTree.refl n
  | cons part rest ih =>
    intro n m hs
    simp only [Node.search] at hs
    split at hs
    · split at hs
      · simp at hs
      · cases hs; exact InTree.refl n
    · obtain ⟨c, hc, hfc⟩ := searchKids_some hs
      exact InTree.child hc (ih c m hfc)

/-- The extraction loop succeeds whenever every pattern part is nonempty
and there are at least as many path parts as pattern parts. -/
theorem extract_some :
    ∀ (parts sps : List Seg) (acc : List (Seg × Seg)),
      (∀ s ∈ parts, s ≠ []) → parts.length ≤ sps.length →
      ∃ ps, extractParams parts sps acc = some ps := by
  intro parts
  induction parts with
  | nil => intro sps acc _ _; exact ⟨acc, rfl⟩
  | cons part rest ih =>
    intro sps acc hne hlen
    have hpne : part ≠ [] := hne part (by simp)
    have hrestne : ∀ s ∈ rest, s ≠ [] := fun s hs => hne s (List.mem_cons_of_mem _ hs)
    cases sps with
    | nil => simp at hlen
    | cons sp sps2 =>
      cases part with
      | nil => exact absurd rfl hpne
      | cons c name =>
        simp only [extractParams]
        by_cases hc : c = ':'
        · simp only [hc, reduceIte]
          exact ih sps2 _ hrestne (by simpa using hlen)
        · by_cases hw : c = '*'
          · simp only [hc, hw, reduceIte]
            rw [joinParts_eq_joinSegs]
            exact ⟨_, rfl⟩
          · simp only [hc, hw, reduceIte]
            exact ih (sp :: sps2).tail acc hrestne (by simpa using hlen)

end restrum

namespace restrum

/-- Source function `insert` preserves the depth invariant when the inserted pattern parses
to exactly the node's depth plus the number of remaining parts. -/
theorem insert_ok :
    ∀ (parts : List Seg) (pat : Seg) (n : Node) (d : Nat),
      NodeOK d n → (parsePattern pat).length = d + parts.length →
      NodeOK d (Node.insert parts pat n) := by
  intro parts
  induction parts with
  | nil =>
    intro pat n d hok hlen
    simp only [Node.insert]
    refine NodeOK.intro _ _ (fun _ => ?_) ?_
    · rw [pattern_withPattern]
      simpa using hlen
    · intro c hc
      rw [children_withPattern] at hc
      exact hok.kids c hc
  | cons part rest ih =>
    intro pat n d hok hlen
    simp only [Node.insert]
    cases hm : Node.matchChildren part n.children with
    | some i =>
      have hi : i < n.children.length := matchChildren_lt hm
      refine NodeOK.intro _ _ (fun hne => ?_) ?_
      · rw [pattern_withChildren] at hne ⊢
        exact hok.pattern_length hne
      · intro c hc
        rw [children_withChildren] at hc
        rcases List.mem_or_eq_of_mem_set hc with hmem | heq
        · exact hok.kids c hmem
        · subst heq
          refine ih pat _ (d + 1) (hok.kids _ (getD_mem n.children i emptyNode hi)) ?_
          simp only [List.length_cons] at hlen
          omega
    | none =>
      refine NodeOK.intro _ _ (fun hne => ?_) ?_
      · rw [pattern_withChildren] at hne ⊢
        exact hok.pattern_length hne
      · intro c hc
        rw [children_withChildren] at hc
        rcases List.mem_append.1 hc with hmem | hnew
        · exact hok.kids c hmem
        · simp only [List.mem_singleton] at hnew
          subst hnew
          refine ih pat _ (d + 1) ?_ ?_
          · exact NodeOK.intro _ _ (fun hfalse => absurd rfl hfalse)
              (fun c hc => absurd hc (by simp [Node.children]))
          · simp only [List.length_cons] at hlen
            omega

/-- Every node of a tree after an insertion either carries the inserted
pattern, carries no pattern, or carries a pattern already present in the
tree before the insertion. -/
theorem inTree_insert :
    ∀ (parts : List Seg) (pat : Seg) (t n : Node),
      InTree n (Node.insert parts pat t) →
      n.pattern = pat ∨ n.pattern = [] ∨
        ∃ n0, InTree n0 t ∧ n0.pattern = n.pattern := by
  intro parts
  induction parts with
  | nil =>
    intro pat t n h
    simp only [Node.insert] at h
    cases h with
    | refl => left; exact pattern_withPattern t pat
    | child hc hin =>
      right; right
      rw [children_withPattern] at hc
      exact ⟨n, InTree.child hc hin, rfl⟩
  | cons part rest ih =>
    intro pat t n h
    simp only [Node.insert] at h
    cases hm : Node.matchChildren part t.children with
    | some i =>
      rw [hm] at h
      have hi : i < t.children.length := matchChildren_lt hm
      cases h with
      | refl =>
        right; right
        exact ⟨t, InTree.refl t, (pattern_withChildren t _).symm⟩
      | child hc hin =>
        rw [children_withChildren] at hc
        rcases List.mem_or_eq_of_mem_set hc with hmem | heq
        · right; right
          rename_i c
          exact ⟨n, InTree.child hmem hin, rfl⟩
        · subst heq
          rcases ih pat _ n hin with h1 | h2 | ⟨n0, hn0, hp⟩
          · left; exact h1
          · right; left; exact h2
          · right; right
            exact ⟨n0, InTree.child (getD_mem t.children i emptyNode hi) hn0, hp⟩
    | none =>
      rw [hm] at h
      cases h with
      | refl =>
        right; right
        exact ⟨t, InTree.refl t, (pattern_withChildren t _).symm⟩
      | child hc hin =>
        rw [children_withChildren] at hc
        rcases List.mem_append.1 hc with hmem | hnew
        · right; right
          rename_i c
          exact ⟨n, InTree.child hmem hin, rfl⟩
        · simp only [List.mem_singleton] at hnew
          subst hnew
          rcases ih pat _ n hin with h1 | h2 | ⟨n0, hn0, hp⟩
          · left; exact h1
          · right; left; exact h2
          · right; left
            have := inTree_leaf hn0
            subst this
            exact hp.symm.trans rfl

end restrum

namespace restrum

/-- Router well-formedness: every method root satisfies the depth invariant,
and every terminating node of a method's tree has a registered handler
under `method + "_" + pattern`. -/
def RouterWF {H : Type} (r : Router H) : Prop :=
  (∀ m rt, lookupAssoc r.root m = some rt → NodeOK 0 rt) ∧
  (∀ m rt n, lookupAssoc r.root m = some rt → InTree n rt → n.pattern ≠ [] →
    ∃ h, lookupAssoc r.handlers (m ++ '_' :: n.pattern) = some h)

theorem routerWF_new {H : Type} : RouterWF (NewRouter H) := by
  constructor
  · intro m rt h; simp [NewRouter, lookupAssoc] at h
  · intro m rt n h; simp [NewRouter, lookupAssoc] at h

theorem routerWF_addRoutes {H : Type} (r : Router H) (method pattern : Seg) (h : H)
    (hwf : RouterWF r) : RouterWF (r.AddRoutes method pattern h) := by
  obtain ⟨hroot, hhand⟩ := hwf
  constructor
  · intro m rt hrt
    simp only [Router.AddRoutes] at hrt
    rw [lookup_update] at hrt
    by_cases hm : m = method
    · rw [if_pos hm] at hrt
      cases hrt
      refine insert_ok _ _ _ 0 ?_ (by simp)
      cases hl : lookupAssoc r.root method with
      | some t => simpa [hl] using hroot method t hl
      | none => simpa [hl] using nodeOK_empty
    · rw [if_neg hm] at hrt
      exact hroot m rt hrt
  · intro m rt n hrt hin hne
    simp only [Router.AddRoutes] at hrt ⊢
    rw [lookup_update] at hrt
    by_cases hm : m = method
    · subst hm
      rw [if_pos rfl] at hrt
      cases hrt
      rcases inTree_insert _ _ _ _ hin with h1 | h2 | ⟨n0, hn0t, hp⟩
      · exact ⟨h, by rw [lookup_update, h1, if_pos rfl]⟩
      · exact absurd h2 hne
      · cases hl : lookupAssoc r.root m with
        | none =>
          simp only [hl] at hn0t
          have heq := inTree_leaf hn0t
          rw [heq] at hp
          exact absurd hp.symm hne
        | some t =>
          simp only [hl] at hn0t
          obtain ⟨h0, hh0⟩ := hhand m t n0 hl hn0t (by rw [hp]; exact hne)
          rw [hp] at hh0
          rw [lookup_update]
          split
          · exact ⟨h, rfl⟩
          · exact ⟨h0, hh0⟩
    · rw [if_neg hm] at hrt
      obtain ⟨h0, hh0⟩ := hhand m rt n hrt hin hne
      rw [lookup_update]
      split
      · exact ⟨h, rfl⟩
      · exact ⟨h0, hh0⟩

theorem buildRouter_wf {H : Type} (regs : List (Seg × Seg × H)) :
    RouterWF (buildRouter regs) := by
  suffices hgen : ∀ (l : List (Seg × Seg × H)) (r : Router H), RouterWF r →
      RouterWF (l.foldl (fun r reg => r.AddRoutes reg.1 reg.2.1 reg.2.2) r) from
    hgen regs (NewRouter H) routerWF_new
  intro l
  induction l with
  | nil => intro r hr; exact hr
  | cons reg rest ih =>
    intro r hr
    exact ih _ (routerWF_addRoutes r reg.1 reg.2.1 reg.2.2 hr)

/-- Resolution never reaches the fault outcome on a router whose trees
satisfy the depth invariant. -/
theorem getRoute_no_fault {H : Type} (r : Router H)
    (hroot : ∀ m rt, lookupAssoc r.root m = some rt → NodeOK 0 rt)
    (method path : Seg) : r.getRoute method path ≠ .fault := by
  simp only [Router.getRoute]
  cases hl : lookupAssoc r.root method with
  | none => simp [hl]
  | some rt =>
    cases hs : Node.search (parsePattern path) rt with
    | none => simp [hl, hs]
    | some n =>
      obtain ⟨hne, hlen⟩ := search_ok (parsePattern path) 0 rt n (hroot method rt hl) hs
      obtain ⟨ps, hps⟩ := extract_some (parsePattern n.pattern) (parsePattern path) []
        (parsePattern_ne_nil n.pattern) (by simpa using hlen)
      simp [hl, hs, hps]

/-- A successful resolution decomposes into a root lookup, a tree search
and a successful parameter extraction. -/
theorem getRoute_found {H : Type} (r : Router H) (method path : Seg)
    (n : Node) (params : List (Seg × Seg))
    (hg : r.getRoute method path = .found n params) :
    ∃ rt, lookupAssoc r.root method = some rt ∧
      Node.search (parsePattern path) rt = some n ∧
      extractParams (parsePattern n.pattern) (parsePattern path) [] = some params := by
  simp only [Router.getRoute] at hg
  cases hl : lookupAssoc r.root method with
  | none => simp only [hl] at hg; simp at hg
  | some rt =>
    simp only [hl] at hg
    cases hs : Node.search (parsePattern path) rt with
    | none => simp only [hs] at hg; simp at hg
    | some n2 =>
      simp only [hs] at hg
      cases he : extractParams (parsePattern n2.pattern) (parsePattern path) [] with
      | none => simp only [he] at hg; simp at hg
      | some ps =>
        simp only [he] at hg
        simp only [RouteResult.found.injEq] at hg
        obtain ⟨hn, hp⟩ := hg
        subst hn; subst hp
        exact ⟨rt, rfl, hs, he⟩

/-- Dispatch on a well-formed router either invokes a handler or writes
the literal 404 response; no other outcome exists. -/
theorem handle_total {H : Type} (r : Router H) (hwf : RouterWF r) (ctx : Context H) :
    (∃ h c, r.handle ctx = .callHandler h c) ∨
      r.handle ctx = .errorResp 404 notFoundBody := by
  cases hg : r.getRoute ctx.httpMethod ctx.routePath with
  | fault => exact absurd hg (getRoute_no_fault r hwf.1 ctx.httpMethod ctx.routePath)
  | miss => right; simp [Router.handle, hg]
  | found n params =>
    left
    obtain ⟨rt, hl, hs, _⟩ := getRoute_found r _ _ n params hg
    have hmem : InTree n rt := search_mem _ rt n hs
    have hne : n.pattern ≠ [] := (search_ok _ 0 rt n (hwf.1 _ rt hl) hs).1
    obtain ⟨h, hh⟩ := hwf.2 _ rt n hl hmem hne
    exact ⟨h, { ctx with params := params }, by simp [Router.handle, hg, hh]⟩

end restrum

namespace restrum

/-- C7: for a router built from any registrations, a miss is reported as a
normal return value — in particular resolution under a method with no root
tree misses, for every router — and dispatch turns a miss into the literal
404 "NOT FOUND" error response, invoking no handler; invoking a handler
and this 404 response are the only possible dispatch outcomes. -/
theorem c7_not_found_is_only_failure {H : Type}
    (regs : List (Seg × Seg × H)) (ctx : Context H) :
    ((buildRouter regs).getRoute ctx.httpMethod ctx.routePath = .miss →
      (buildRouter regs).handle ctx = .errorResp 404 notFoundBody) ∧
    (∀ (r : Router H) (method path : Seg), lookupAssoc r.root method = none →
      r.getRoute method path = .miss) ∧
    ((∃ h c, (buildRouter regs).handle ctx = .callHandler h c) ∨
      (buildRouter regs).handle ctx = .errorResp 404 notFoundBody) := by
  refine ⟨?_, ?_, handle_total _ (buildRouter_wf regs) ctx⟩
  · intro hmiss
    simp [Router.handle, hmiss]
  · intro r method path hnone
    simp [Router.getRoute, hnone]

/-- C7 witness: the empty router 404s a concrete request. -/
theorem c7_not_found_is_only_failure_witness :
    (buildRouter ([] : List (Seg × Seg × Nat))).handle
        (Context.mk [] (str "GET") (str "/x") (-1) []) =
      .errorResp 404 notFoundBody :=
  (c7_not_found_is_only_failure [] (Context.mk [] (str "GET") (str "/x") (-1) [])).1 rfl

/-- C10: for every built router, method and path, parsing yields only
nonempty segments, resolution never reaches the out-of-bounds fault
outcome, and any node found by search stores a nonempty pattern with at
most as many segments as the parsed path. -/
theorem c10_no_out_of_bounds {H : Type} (regs : List (Seg × Seg × H))
    (method path : Seg) :
    (∀ s ∈ parsePattern path, s ≠ []) ∧
    (buildRouter regs).getRoute method path ≠ .fault ∧
    (∀ rt n, lookupAssoc (buildRouter regs).root method = some rt →
      Node.search (parsePattern path) rt = some n →
      n.pattern ≠ [] ∧ (parsePattern n.pattern).length ≤ (parsePattern path).length) := by
  refine ⟨parsePattern_ne_nil path,
    getRoute_no_fault _ (buildRouter_wf regs).1 method path, ?_⟩
  intro rt n hl hs
  have h := search_ok (parsePattern path) 0 rt n ((buildRouter_wf regs).1 method rt hl) hs
  exact ⟨h.1, by simpa using h.2⟩

/-- C10 witness at a concrete registration list and request. -/
theorem c10_no_out_of_bounds_witness :
    (buildRouter [(str "GET", str "/static/*filepath", (7 : Nat))]).getRoute
        (str "GET") (str "/static/css/app.css") ≠ .fault :=
  (c10_no_out_of_bounds [(str "GET", str "/static/*filepath", (7 : Nat))]
    (str "GET") (str "/static/css/app.css")).2.1

end restrum
